import Mathlib

/-!
# Verification of the voice-pipeline orchestrator

Shallow embedding of the streaming pipeline in
`src/components/python/src/main.py` and the STT client in
`src/components/python/src/cartesia_stt.py`, together with theorems
settling the behavioural claims about the turn buffer, the dialog stage,
and the STT handle's degradation and teardown behaviour.

Streams are modelled as lists consumed in order; the cooperative
generators of the source become list-transforming functions; exceptions
of collaborator calls become explicit outcome parameters.
-/

/-- Modelled from the spec: the closed event model of section 3.  The
repository's `events.py` (not under `src/`) declares these tagged
variants; the code under verification only constructs them and matches
on their tag and fields.  `sttFinal` is the `stt_output` tag of the
source, carrying the finalized transcript. -/
inductive Event where
  | sttChunk (text : String)
  | sttFinal (transcript : String)
  | agentChunk (text : String)
  | toolCall (id : String) (name : String) (args : String)
  | toolResult (tool_call_id : String) (name : String) (result : String)
  | agentEnd
  | audioChunk (data : String)
  deriving DecidableEq, Repr

def isAgentEnd : Event → Bool
  | .agentEnd => true
  | _ => false

def isSttFinal : Event → Bool
  | .sttFinal _ => true
  | _ => false

def isSttEvent : Event → Bool
  | .sttChunk _ => true
  | .sttFinal _ => true
  | _ => false

/-- Events a dialog turn may emit between its `sttFinal` trigger and its
`agentEnd`. -/
def isTurnContent : Event → Bool
  | .agentChunk _ => true
  | .toolCall _ _ _ => true
  | .toolResult _ _ _ => true
  | _ => false

def chunkText : Event → Option String
  | .agentChunk t => some t
  | _ => none

/-- Concatenation of a list of strings in order, the semantics of the
source's `"".join(buffer)`. -/
def joinAll : List String → String
  | [] => ""
  | s :: rest => s ++ joinAll rest

lemma joinAll_append (a b : List String) :
    joinAll (a ++ b) = joinAll a ++ joinAll b := by
  induction a with
  | nil => simp [joinAll]
  | cons x xs ih => simp [joinAll, ih, String.append_assoc]

/-- Result of running the synthesis stage's upstream loop on a finite
input: the passed-through events, the strings handed to
`tts.send_text` in call order, and the final text buffer. -/
structure UpstreamResult where
  out : List Event
  sent : List String
  buf : List String
  deriving DecidableEq, Repr

/-- The `process_upstream` loop of `_tts_stream` (main.py): yield every
event through, append `agent_chunk` texts to the buffer, and on
`agent_end` pass the joined buffer to `tts.send_text` and reset the
buffer.  The source performs the `send_text` call unconditionally. -/
def processUpstream : List Event → List String → UpstreamResult
  | [], buf => ⟨[], [], buf⟩
  | e :: rest, buf =>
    match e with
    | .agentChunk t =>
      let r := processUpstream rest (buf ++ [t])
      ⟨e :: r.out, r.sent, r.buf⟩
    | .agentEnd =>
      let r := processUpstream rest []
      ⟨e :: r.out, joinAll buf :: r.sent, r.buf⟩
    | _ =>
      let r := processUpstream rest buf
      ⟨e :: r.out, r.sent, r.buf⟩

/-- Spec-side view of a stream: the segments closed by each `agentEnd`
(in order) and the trailing events after the last `agentEnd`. -/
def turnSplit : List Event → List (List Event) × List Event
  | [] => ([], [])
  | e :: rest =>
    if isAgentEnd e then
      (([] : List Event) :: (turnSplit rest).1, (turnSplit rest).2)
    else
      match turnSplit rest with
      | ([], trail) => ([], e :: trail)
      | (seg :: more, trail) => ((e :: seg) :: more, trail)

/-- Spec-side definition, following the spec's words: for each turn
(events up to an `agentEnd`), the concatenation of the `AgentChunk`
texts of that turn, in arrival order. -/
def turnConcats (es : List Event) : List String :=
  (turnSplit es).1.map (fun seg => joinAll (seg.filterMap chunkText))

/-- Generalized flush lemma: starting from buffer `buf`, the strings
sent are the turn concatenations with `buf`'s content prepended to the
first (still-open) turn. -/
lemma processUpstream_sent (es : List Event) (buf : List String) :
    (processUpstream es buf).sent =
      match (turnSplit es).1 with
      | [] => []
      | s :: more =>
        joinAll (buf ++ s.filterMap chunkText) ::
          more.map (fun seg => joinAll (seg.filterMap chunkText)) := by
  induction es generalizing buf with
  | nil => simp [processUpstream, turnSplit]
  | cons e rest ih =>
    cases e with
    | agentChunk t =>
      show (processUpstream rest (buf ++ [t])).sent = _
      rw [ih]
      rcases h : turnSplit rest with ⟨closed, trail⟩
      cases closed with
      | nil => simp [turnSplit, isAgentEnd, h]
      | cons s more => simp [turnSplit, isAgentEnd, h, chunkText]
    | agentEnd =>
      show joinAll buf :: (processUpstream rest []).sent = _
      rw [ih]
      rcases h : turnSplit rest with ⟨closed, trail⟩
      cases closed with
      | nil => simp [turnSplit, isAgentEnd, h]
      | cons s more => simp [turnSplit, isAgentEnd, h]
    | sttChunk t =>
      show (processUpstream rest buf).sent = _
      rw [ih]
      rcases h : turnSplit rest with ⟨closed, trail⟩
      cases closed with
      | nil => simp [turnSplit, isAgentEnd, h]
      | cons s more => simp [turnSplit, isAgentEnd, h, chunkText]
    | sttFinal t =>
      show (processUpstream rest buf).sent = _
      rw [ih]
      rcases h : turnSplit rest with ⟨closed, trail⟩
      cases closed with
      | nil => simp [turnSplit, isAgentEnd, h]
      | cons s more => simp [turnSplit, isAgentEnd, h, chunkText]
    | toolCall i n a =>
      show (processUpstream rest buf).sent = _
      rw [ih]
      rcases h : turnSplit rest with ⟨closed, trail⟩
      cases closed with
      | nil => simp [turnSplit, isAgentEnd, h]
      | cons s more => simp [turnSplit, isAgentEnd, h, chunkText]
    | toolResult i n r =>
      show (processUpstream rest buf).sent = _
      rw [ih]
      rcases h : turnSplit rest with ⟨closed, trail⟩
      cases closed with
      | nil => simp [turnSplit, isAgentEnd, h]
      | cons s more => simp [turnSplit, isAgentEnd, h, chunkText]
    | audioChunk d =>
      show (processUpstream rest buf).sent = _
      rw [ih]
      rcases h : turnSplit rest with ⟨closed, trail⟩
      cases closed with
      | nil => simp [turnSplit, isAgentEnd, h]
      | cons s more => simp [turnSplit, isAgentEnd, h, chunkText]

lemma processUpstream_out (es : List Event) (buf : List String) :
    (processUpstream es buf).out = es := by
  induction es generalizing buf with
  | nil => rfl
  | cons e rest ih => cases e <;> simp [processUpstream, ih]

lemma processUpstream_buf (es : List Event) (buf : List String) :
    (processUpstream es buf).buf =
      (if (turnSplit es).1 = [] then buf else []) ++
        (turnSplit es).2.filterMap chunkText := by
  induction es generalizing buf with
  | nil => simp [processUpstream, turnSplit]
  | cons e rest ih =>
    cases e with
    | agentChunk t =>
      show (processUpstream rest (buf ++ [t])).buf = _
      rw [ih]
      rcases h : turnSplit rest with ⟨closed, trail⟩
      cases closed with
      | nil => simp [turnSplit, isAgentEnd, h, chunkText]
      | cons s more => simp [turnSplit, isAgentEnd, h]
    | agentEnd =>
      show (processUpstream rest []).buf = _
      rw [ih]
      rcases h : turnSplit rest with ⟨closed, trail⟩
      cases closed with
      | nil => simp [turnSplit, isAgentEnd, h]
      | cons s more => simp [turnSplit, isAgentEnd, h]
    | sttChunk t =>
      show (processUpstream rest buf).buf = _
      rw [ih]
      rcases h : turnSplit rest with ⟨closed, trail⟩
      cases closed with
      | nil => simp [turnSplit, isAgentEnd, h, chunkText]
      | cons s more => simp [turnSplit, isAgentEnd, h]
    | sttFinal t =>
      show (processUpstream rest buf).buf = _
      rw [ih]
      rcases h : turnSplit rest with ⟨closed, trail⟩
      cases closed with
      | nil => simp [turnSplit, isAgentEnd, h, chunkText]
      | cons s more => simp [turnSplit, isAgentEnd, h]
    | toolCall i n a =>
      show (processUpstream rest buf).buf = _
      rw [ih]
      rcases h : turnSplit rest with ⟨closed, trail⟩
      cases closed with
      | nil => simp [turnSplit, isAgentEnd, h, chunkText]
      | cons s more => simp [turnSplit, isAgentEnd, h]
    | toolResult i n r =>
      show (processUpstream rest buf).buf = _
      rw [ih]
      rcases h : turnSplit rest with ⟨closed, trail⟩
      cases closed with
      | nil => simp [turnSplit, isAgentEnd, h, chunkText]
      | cons s more => simp [turnSplit, isAgentEnd, h]
    | audioChunk d =>
      show (processUpstream rest buf).buf = _
      rw [ih]
      rcases h : turnSplit rest with ⟨closed, trail⟩
      cases closed with
      | nil => simp [turnSplit, isAgentEnd, h, chunkText]
      | cons s more => simp [turnSplit, isAgentEnd, h]

/-- C1: starting from an empty buffer, the synthesis stage passes every
event through unchanged, submits to `send_text`, for each `agentEnd` in
order, exactly the concatenation of the `AgentChunk` texts that arrived
since the previous `agentEnd` (or stream start), and leaves in the
buffer exactly the chunk texts that arrived after the last `agentEnd`,
so each turn starts from an empty buffer. -/
theorem C1_turn_buffer_flush (es : List Event) :
    (processUpstream es []).out = es ∧
    (processUpstream es []).sent = turnConcats es ∧
    (processUpstream es []).buf = (turnSplit es).2.filterMap chunkText := by
  refine ⟨processUpstream_out es [], ?_, ?_⟩
  · rw [processUpstream_sent]
    unfold turnConcats
    cases h : (turnSplit es).1 with
    | nil => simp
    | cons s more => simp
  · rw [processUpstream_buf]
    cases h : (turnSplit es).1 with
    | nil => simp [h]
    | cons s more => simp [h]

/-- C2 counterexample: a turn whose buffered chunk texts concatenate to
the empty string still produces a `send_text` submission — on the input
consisting of a single `agentEnd` the source invokes `send_text` with
`""` instead of skipping it. -/
theorem C2_empty_turn_still_submits :
    (processUpstream [Event.agentEnd] []).sent = [""] := by decide

/-- C2 amended: `send_text` is invoked exactly once per `agentEnd`
observed, with no emptiness check: the number of submissions equals the
number of `agentEnd` events, even for turns whose concatenation is
empty. -/
theorem C2_submission_per_agentEnd (es : List Event) (buf : List String) :
    (processUpstream es buf).sent.length = es.countP isAgentEnd := by
  induction es generalizing buf with
  | nil => simp [processUpstream]
  | cons e rest ih =>
    cases e <;>
      simp [processUpstream, List.countP_cons, isAgentEnd, ih]

/-- One entry of an `AIMessage.tool_calls` list as the dialog stage reads
it: `id` and `name` may be absent, `args` is kept opaque. -/
structure ToolCallData where
  id : Option String
  name : Option String
  args : Option String
  deriving DecidableEq, Repr

/-- A unit of the agent collaborator's stream as consumed by
`_agent_stream`: an `AIMessage` (text plus tool invocations), a
`ToolMessage` (tool outcome), or any other message kind, which the
source ignores. -/
inductive AgentMsg where
  | ai (text : String) (tool_calls : List ToolCallData)
  | tool (tool_call_id : Option String) (name : Option String) (content : Option String)
  | otherMsg
  deriving DecidableEq, Repr

/-- A concrete injective supply of locally generated ids, standing for
the source's `str(uuid4())` calls in closed evaluations. -/
def freshId (n : Nat) : String :=
  "generated-" ++ toString n

/-- The id put on an emitted `ToolCall`: `tool_call.get("id") or
str(uuid4())` — an absent id, and also the falsy empty string, is
replaced by a freshly drawn id, advancing the supply counter. -/
def toolCallIdOf (fresh : Nat → String) (n : Nat) : Option String → String × Nat
  | some s => if s = "" then (fresh n, n + 1) else (s, n)
  | none => (fresh n, n + 1)

/-- The `ToolCall` events emitted for one `AIMessage`'s tool-call list,
threading the fresh-id counter; name defaults to `"unknown"`, args to
the empty dict. -/
def processToolCalls (fresh : Nat → String) : List ToolCallData → Nat → List Event × Nat
  | [], n => ([], n)
  | tc :: rest, n =>
    match toolCallIdOf fresh n tc.id with
    | (i, n') =>
      match processToolCalls fresh rest n' with
      | (evs, n'') => (Event.toolCall i (tc.name.getD "unknown") (tc.args.getD "{}") :: evs, n'')

/-- Events `_agent_stream` emits for one streamed message: an
`AIMessage` yields one `AgentChunk` with the message's text (empty text
included) followed by its `ToolCall` events; a `ToolMessage` yields one
`ToolResult` whose `tool_call_id` defaults to `""` and whose result is
the message content with falsy content collapsed to `""`; other
messages yield nothing. -/
def processMsg (fresh : Nat → String) : AgentMsg → Nat → List Event × Nat
  | .ai text tcs, n =>
    match processToolCalls fresh tcs n with
    | (evs, n') => (Event.agentChunk text :: evs, n')
  | .tool tcid name content, n =>
    ([Event.toolResult (tcid.getD "") (name.getD "unknown") (content.getD "")], n)
  | .otherMsg, n => ([], n)

/-- Events emitted while consuming the agent's stream for one turn, in
stream order, before the closing `agentEnd`. -/
def turnBody (fresh : Nat → String) : List AgentMsg → Nat → List Event × Nat
  | [], n => ([], n)
  | m :: rest, n =>
    match processMsg fresh m n with
    | (evs, n') =>
      match turnBody fresh rest n' with
      | (evs2, n'') => (evs ++ evs2, n'')

/-- One whole agent turn as `_agent_stream` runs it.  `raises = false`
is the normal path: the full stream is consumed and exactly one
`agentEnd` follows it.  `raises = true` models the agent's stream
raising after yielding `msgs`: the source has no handler there, so the
events already yielded stand, no `agentEnd` is emitted, and the
exception propagates (the `Bool` component records normal
completion). -/
def agentTurnRun (fresh : Nat → String) (msgs : List AgentMsg) (raises : Bool) (n : Nat) :
    List Event × Nat × Bool :=
  match turnBody fresh msgs n with
  | (evs, n') =>
    if raises then (evs, n', false) else (evs ++ [Event.agentEnd], n', true)

/-- The dialog stage `_agent_stream` on a finite input (error-free
turns): every event passes through; each `sttFinal` additionally
triggers one agent invocation, whose streamed messages are the next
entry of `streams` (an exhausted list acts as an empty stream), and
whose events plus one closing `agentEnd` are emitted before the next
input event is consumed. -/
def agentStream (fresh : Nat → String) : List Event → List (List AgentMsg) → Nat → List Event
  | [], _, _ => []
  | e :: rest, streams, n =>
    match e with
    | .sttFinal _ =>
      match turnBody fresh (streams.headD []) n with
      | (tevs, n') =>
        e :: (tevs ++ Event.agentEnd :: agentStream fresh rest streams.tail n')
    | _ => e :: agentStream fresh rest streams n

/-- Turn nesting discipline, read left to right: outside a turn only
STT events may occur and `sttFinal` opens a turn; inside a turn only
turn content may occur and `agentEnd` closes it; the stream must end
outside a turn. -/
def turnsClosed : Bool → List Event → Bool
  | inTurn, [] => !inTurn
  | false, e :: rest =>
    match e with
    | .sttChunk _ => turnsClosed false rest
    | .sttFinal _ => turnsClosed true rest
    | _ => false
  | true, e :: rest =>
    match e with
    | .agentChunk _ => turnsClosed true rest
    | .toolCall _ _ _ => turnsClosed true rest
    | .toolResult _ _ _ => turnsClosed true rest
    | .agentEnd => turnsClosed false rest
    | _ => false

example :
    agentStream freshId [Event.sttFinal "hi"]
      [[AgentMsg.ai "Sure, " [⟨some "t1", some "add_to_order", some "{}"⟩],
        AgentMsg.tool (some "t1") (some "add_to_order") (some "Added"),
        AgentMsg.ai "Anything else?" []]] 0 =
    [Event.sttFinal "hi",
     Event.agentChunk "Sure, ",
     Event.toolCall "t1" "add_to_order" "{}",
     Event.toolResult "t1" "add_to_order" "Added",
     Event.agentChunk "Anything else?",
     Event.agentEnd] := by decide

example :
    turnsClosed false
      (agentStream freshId [Event.sttChunk "h", Event.sttFinal "hi"]
        [[AgentMsg.ai "ok" []]] 0) = true := by decide

lemma processToolCalls_content (fresh : Nat → String) (tcs : List ToolCallData) :
    ∀ n, ∀ e ∈ (processToolCalls fresh tcs n).1, isTurnContent e = true := by
  induction tcs with
  | nil => intro n e he; simp [processToolCalls] at he
  | cons tc rest ih =>
    intro n e he
    rcases h1 : toolCallIdOf fresh n tc.id with ⟨i, n'⟩
    rcases h2 : processToolCalls fresh rest n' with ⟨evs, n''⟩
    simp only [processToolCalls, h1, h2, List.mem_cons] at he
    rcases he with he | he
    · subst he; rfl
    · have := ih n' e (by rw [h2]; exact he)
      exact this

lemma processMsg_content (fresh : Nat → String) (m : AgentMsg) (n : Nat) :
    ∀ e ∈ (processMsg fresh m n).1, isTurnContent e = true := by
  intro e he
  cases m with
  | ai text tcs =>
    rcases h : processToolCalls fresh tcs n with ⟨evs, n'⟩
    simp only [processMsg, h, List.mem_cons] at he
    rcases he with he | he
    · subst he; rfl
    · exact processToolCalls_content fresh tcs n e (by rw [h]; exact he)
  | tool a b c =>
    simp only [processMsg, List.mem_singleton] at he
    subst he; rfl
  | otherMsg => simp [processMsg] at he

lemma turnBody_content (fresh : Nat → String) (msgs : List AgentMsg) :
    ∀ n, ∀ e ∈ (turnBody fresh msgs n).1, isTurnContent e = true := by
  induction msgs with
  | nil => intro n e he; simp [turnBody] at he
  | cons m rest ih =>
    intro n e he
    rcases h1 : processMsg fresh m n with ⟨evs, n'⟩
    rcases h2 : turnBody fresh rest n' with ⟨evs2, n''⟩
    simp only [turnBody, h1, h2, List.mem_append] at he
    rcases he with he | he
    · exact processMsg_content fresh m n e (by rw [h1]; exact he)
    · exact ih n' e (by rw [h2]; exact he)

lemma turnsClosed_content_append (xs : List Event) (l : List Event)
    (h : ∀ e ∈ l, isTurnContent e = true) :
    turnsClosed true (l ++ xs) = turnsClosed true xs := by
  induction l with
  | nil => rfl
  | cons e l ih =>
    have he : isTurnContent e = true := h e (List.mem_cons_self e l)
    have hrest : ∀ e ∈ l, isTurnContent e = true :=
      fun e' he' => h e' (List.mem_cons_of_mem e he')
    cases e <;> simp_all [isTurnContent, turnsClosed]

lemma content_countP_agentEnd (l : List Event)
    (h : ∀ e ∈ l, isTurnContent e = true) :
    l.countP isAgentEnd = 0 := by
  rw [List.countP_eq_zero]
  intro e he
  have := h e he
  cases e <;> simp_all [isTurnContent, isAgentEnd]

/-- C3: on any STT-only input (the shape `_stt_stream` produces), the
dialog stage's output satisfies the turn nesting discipline — every
`sttFinal` opens a turn that is closed by a single `agentEnd` placed
after all of that turn's `AgentChunk`/`ToolCall`/`ToolResult` events —
and the number of `agentEnd` events equals the number of `sttFinal`
events. -/
theorem C3_one_agentEnd_per_turn (fresh : Nat → String) (input : List Event)
    (streams : List (List AgentMsg)) (n : Nat)
    (h : ∀ e ∈ input, isSttEvent e = true) :
    turnsClosed false (agentStream fresh input streams n) = true ∧
    (agentStream fresh input streams n).countP isAgentEnd =
      input.countP isSttFinal := by
  induction input generalizing streams n with
  | nil => simp [agentStream, turnsClosed]
  | cons e rest ih =>
    have hrest : ∀ e ∈ rest, isSttEvent e = true :=
      fun e' he' => h e' (List.mem_cons_of_mem e he')
    have he : isSttEvent e = true := h e (List.mem_cons_self e rest)
    cases e with
    | sttChunk t =>
      have := ih streams n hrest
      simp [agentStream, turnsClosed, List.countP_cons, isSttFinal, isAgentEnd, this.1, this.2]
    | sttFinal t =>
      rcases hb : turnBody fresh (streams.headD []) n with ⟨tevs, n'⟩
      have hcont : ∀ e ∈ tevs, isTurnContent e = true := by
        intro e he'; exact turnBody_content fresh (streams.headD []) n e (by rw [hb]; exact he')
      have hrec := ih streams.tail n' hrest
      constructor
      · simp only [agentStream, hb]
        show turnsClosed true (tevs ++ Event.agentEnd :: agentStream fresh rest streams.tail n') = true
        rw [turnsClosed_content_append _ tevs hcont]
        show turnsClosed false (agentStream fresh rest streams.tail n') = true
        exact hrec.1
      · simp only [agentStream, hb]
        rw [List.countP_cons, List.countP_append, List.countP_cons]
        simp [isAgentEnd, isSttFinal, content_countP_agentEnd tevs hcont, hrec.2,
          List.countP_cons]
    | agentChunk t => simp [isSttEvent] at he
    | toolCall a b c => simp [isSttEvent] at he
    | toolResult a b c => simp [isSttEvent] at he
    | agentEnd => simp [isSttEvent] at he
    | audioChunk d => simp [isSttEvent] at he

/-- C3 witness: concrete two-event STT input with one finalized
transcript; the dialog output is well nested with exactly one
`agentEnd`. -/
theorem C3_one_agentEnd_per_turn_witness :
    turnsClosed false
        (agentStream freshId [Event.sttChunk "h", Event.sttFinal "hi"]
          [[AgentMsg.ai "ok" [], AgentMsg.otherMsg]] 0) = true ∧
    (agentStream freshId [Event.sttChunk "h", Event.sttFinal "hi"]
          [[AgentMsg.ai "ok" [], AgentMsg.otherMsg]] 0).countP isAgentEnd =
      ([Event.sttChunk "h", Event.sttFinal "hi"]).countP isSttFinal :=
  C3_one_agentEnd_per_turn freshId [Event.sttChunk "h", Event.sttFinal "hi"]
    [[AgentMsg.ai "ok" [], AgentMsg.otherMsg]] 0 (by decide)

/-- The turn markers of a stream: its `sttFinal` and `agentEnd` events
in order. -/
def turnMarkers (es : List Event) : List Event :=
  es.filter (fun e => isSttFinal e || isAgentEnd e)

/-- Strict alternation of turn markers: an `sttFinal` is always
followed (not necessarily adjacently in the full stream) by exactly one
`agentEnd` before any further `sttFinal`, and every opened turn is
closed by the end of the stream. -/
def altFE : Bool → List Event → Bool
  | false, [] => true
  | true, [] => false
  | false, e :: r => isSttFinal e && altFE true r
  | true, e :: r => isAgentEnd e && altFE false r

lemma content_no_markers (l : List Event)
    (h : ∀ e ∈ l, isTurnContent e = true) :
    turnMarkers l = [] := by
  induction l with
  | nil => rfl
  | cons e l ih =>
    have he := h e (List.mem_cons_self e l)
    have hrest : ∀ e ∈ l, isTurnContent e = true :=
      fun e' he' => h e' (List.mem_cons_of_mem e he')
    cases e <;> simp_all [isTurnContent, isSttFinal, isAgentEnd, List.filter_cons, turnMarkers]

lemma content_no_finals (l : List Event)
    (h : ∀ e ∈ l, isTurnContent e = true) :
    l.filter isSttFinal = [] := by
  induction l with
  | nil => rfl
  | cons e l ih =>
    have he := h e (List.mem_cons_self e l)
    have hrest : ∀ e ∈ l, isTurnContent e = true :=
      fun e' he' => h e' (List.mem_cons_of_mem e he')
    cases e <;> simp_all [isTurnContent, isSttFinal, List.filter_cons]

/-- C4: on any STT-only input, the dialog stage's turn markers strictly
alternate `sttFinal`, `agentEnd`, `sttFinal`, `agentEnd`, … — no new
agent invocation starts before the previous turn's `agentEnd` — and the
output's `sttFinal` events are exactly the input's, in order: a
finalized transcript arriving while a turn is in flight is not dropped
but processed after the current turn's `agentEnd`. -/
theorem C4_at_most_one_turn_in_flight (fresh : Nat → String) (input : List Event)
    (streams : List (List AgentMsg)) (n : Nat)
    (h : ∀ e ∈ input, isSttEvent e = true) :
    altFE false (turnMarkers (agentStream fresh input streams n)) = true ∧
    (agentStream fresh input streams n).filter isSttFinal =
      input.filter isSttFinal := by
  induction input generalizing streams n with
  | nil => simp [agentStream, turnMarkers, altFE]
  | cons e rest ih =>
    have hrest : ∀ e ∈ rest, isSttEvent e = true :=
      fun e' he' => h e' (List.mem_cons_of_mem e he')
    have he : isSttEvent e = true := h e (List.mem_cons_self e rest)
    cases e with
    | sttChunk t =>
      have := ih streams n hrest
      simp [agentStream, turnMarkers, List.filter_cons, isSttFinal, isAgentEnd,
        this.1, this.2, turnMarkers] at this ⊢
      exact this
    | sttFinal t =>
      rcases hb : turnBody fresh (streams.headD []) n with ⟨tevs, n'⟩
      have hcont : ∀ e ∈ tevs, isTurnContent e = true := by
        intro e he'; exact turnBody_content fresh (streams.headD []) n e (by rw [hb]; exact he')
      have hrec := ih streams.tail n' hrest
      constructor
      · simp only [agentStream, hb]
        have hm : turnMarkers (Event.sttFinal t :: (tevs ++ Event.agentEnd ::
            agentStream fresh rest streams.tail n')) =
            Event.sttFinal t :: (turnMarkers tevs ++ Event.agentEnd ::
              turnMarkers (agentStream fresh rest streams.tail n')) := by
          simp [turnMarkers, List.filter_cons, List.filter_append, isSttFinal, isAgentEnd]
        rw [hm, content_no_markers tevs hcont, List.nil_append]
        show altFE true (Event.agentEnd ::
          turnMarkers (agentStream fresh rest streams.tail n')) = true
        show altFE false (turnMarkers (agentStream fresh rest streams.tail n')) = true
        exact hrec.1
      · simp only [agentStream, hb]
        have hf : List.filter isSttFinal (Event.sttFinal t :: (tevs ++ Event.agentEnd ::
            agentStream fresh rest streams.tail n')) =
            Event.sttFinal t :: (List.filter isSttFinal tevs ++
              List.filter isSttFinal (agentStream fresh rest streams.tail n')) := by
          simp [List.filter_cons, List.filter_append, isSttFinal, isAgentEnd]
        rw [hf, content_no_finals tevs hcont, List.nil_append, hrec.2]
        rw [List.filter_cons]
        simp [isSttFinal]
    | agentChunk t => simp [isSttEvent] at he
    | toolCall a b c => simp [isSttEvent] at he
    | toolResult a b c => simp [isSttEvent] at he
    | agentEnd => simp [isSttEvent] at he
    | audioChunk d => simp [isSttEvent] at he

/-- C4 witness: two finalized transcripts in a row; the markers of the
output alternate and both transcripts are processed in order. -/
theorem C4_at_most_one_turn_in_flight_witness :
    altFE false (turnMarkers (agentStream freshId
        [Event.sttFinal "a", Event.sttFinal "b"]
        [[AgentMsg.ai "one" []], [AgentMsg.ai "two" []]] 0)) = true ∧
    (agentStream freshId [Event.sttFinal "a", Event.sttFinal "b"]
        [[AgentMsg.ai "one" []], [AgentMsg.ai "two" []]] 0).filter isSttFinal =
      ([Event.sttFinal "a", Event.sttFinal "b"]).filter isSttFinal :=
  C4_at_most_one_turn_in_flight freshId [Event.sttFinal "a", Event.sttFinal "b"]
    [[AgentMsg.ai "one" []], [AgentMsg.ai "two" []]] 0 (by decide)

/-- C6 counterexample: a turn whose agent stream raises (here after
yielding one `AIMessage`) emits no `agentEnd` at all — the source's
`_agent_stream` has no handler around the agent's stream, so the claim
that exactly one `agentEnd` is still emitted fails. -/
theorem C6_failed_turn_has_no_agentEnd :
    ((agentTurnRun freshId [AgentMsg.ai "Let me check" []] true 0).1).countP
        isAgentEnd = 0 ∧
    (agentTurnRun freshId [AgentMsg.ai "Let me check" []] true 0).2.2 = false := by
  decide

/-- C6 amended: when the agent's stream raises after yielding `msgs`,
the dialog stage keeps the events already yielded for the turn, emits
no `agentEnd`, does not complete the turn (the exception propagates,
aborting the stream), and forwards no error detail: every emitted event
is ordinary turn content. -/
theorem C6_agent_error_aborts_turn (fresh : Nat → String) (msgs : List AgentMsg)
    (n : Nat) :
    (agentTurnRun fresh msgs true n).1 = (turnBody fresh msgs n).1 ∧
    ((agentTurnRun fresh msgs true n).1).countP isAgentEnd = 0 ∧
    (agentTurnRun fresh msgs true n).2.2 = false ∧
    ∀ e ∈ (agentTurnRun fresh msgs true n).1, isTurnContent e = true := by
  rcases hb : turnBody fresh msgs n with ⟨tevs, n'⟩
  have hcont : ∀ e ∈ tevs, isTurnContent e = true := by
    intro e he; exact turnBody_content fresh msgs n e (by rw [hb]; exact he)
  refine ⟨by simp [agentTurnRun, hb], ?_, by simp [agentTurnRun, hb], ?_⟩
  · simp only [agentTurnRun, hb, if_pos]
    exact content_countP_agentEnd tevs hcont
  · simp only [agentTurnRun, hb, if_pos]
    exact hcont

def aiText : AgentMsg → Option String
  | .ai t _ => some t
  | _ => none

lemma processToolCalls_no_chunks (fresh : Nat → String) (tcs : List ToolCallData) :
    ∀ n, ((processToolCalls fresh tcs n).1).filterMap chunkText = [] := by
  induction tcs with
  | nil => intro n; rfl
  | cons tc rest ih =>
    intro n
    rcases h1 : toolCallIdOf fresh n tc.id with ⟨i, n'⟩
    rcases h2 : processToolCalls fresh rest n' with ⟨evs, n''⟩
    have := ih n'
    rw [h2] at this
    simp [processToolCalls, h1, h2, List.filterMap_cons, chunkText, this]

lemma turnBody_chunkTexts (fresh : Nat → String) (msgs : List AgentMsg) :
    ∀ n, ((turnBody fresh msgs n).1).filterMap chunkText = msgs.filterMap aiText := by
  induction msgs with
  | nil => intro n; rfl
  | cons m rest ih =>
    intro n
    rcases h1 : processMsg fresh m n with ⟨evs, n'⟩
    rcases h2 : turnBody fresh rest n' with ⟨evs2, n''⟩
    have hr := ih n'
    rw [h2] at hr
    cases m with
    | ai t tcs =>
      rcases h3 : processToolCalls fresh tcs n with ⟨tevs, m'⟩
      have hnc := processToolCalls_no_chunks fresh tcs n
      rw [h3] at hnc
      simp only [processMsg, h3] at h1
      rcases h1 with ⟨rfl, rfl⟩
      simp [turnBody, h2, h3, processMsg, List.filterMap_append, List.filterMap_cons,
        chunkText, hnc, hr, aiText]
    | tool a b c =>
      simp only [processMsg] at h1
      rcases h1 with ⟨rfl, rfl⟩
      simp [turnBody, h2, processMsg, List.filterMap_append, List.filterMap_cons,
        chunkText, hr, aiText]
    | otherMsg =>
      simp only [processMsg] at h1
      rcases h1 with ⟨rfl, rfl⟩
      simp [turnBody, h2, processMsg, hr, aiText]

lemma turnBody_ai_block (fresh : Nat → String) (l1 : List AgentMsg)
    (t : String) (tcs : List ToolCallData) (l2 : List AgentMsg) :
    ∀ n, ∃ o1 o2 k,
      (turnBody fresh (l1 ++ AgentMsg.ai t tcs :: l2) n).1 =
        o1 ++ Event.agentChunk t :: (processToolCalls fresh tcs k).1 ++ o2 := by
  induction l1 with
  | nil =>
    intro n
    rcases h3 : processToolCalls fresh tcs n with ⟨tevs, m'⟩
    rcases h2 : turnBody fresh l2 m' with ⟨evs2, n''⟩
    refine ⟨[], evs2, n, ?_⟩
    simp [turnBody, processMsg, h3, h2]
  | cons m rest ih =>
    intro n
    rcases h1 : processMsg fresh m n with ⟨evs, n'⟩
    rcases ih n' with ⟨o1, o2, k, hk⟩
    rcases h2 : turnBody fresh (rest ++ AgentMsg.ai t tcs :: l2) n' with ⟨evs2, n''⟩
    rw [h2] at hk
    refine ⟨evs ++ o1, o2, k, ?_⟩
    show (turnBody fresh (m :: (rest ++ AgentMsg.ai t tcs :: l2)) n).1 = _
    simp [turnBody, h1, h2, hk]

/-- C10: the sequence of `AgentChunk` texts of a dialog turn equals the
sequence of the streamed `AIMessage` texts — exactly one chunk per
`AIMessage`, empty texts included — and for every `AIMessage` of the
stream its `AgentChunk` is emitted immediately before the `ToolCall`
events derived from that same message. -/
theorem C10_chunk_per_ai_message (fresh : Nat → String) (msgs : List AgentMsg)
    (n : Nat) :
    ((turnBody fresh msgs n).1).filterMap chunkText = msgs.filterMap aiText ∧
    ∀ l1 t tcs l2, msgs = l1 ++ AgentMsg.ai t tcs :: l2 →
      ∃ o1 o2 k,
        (turnBody fresh msgs n).1 =
          o1 ++ Event.agentChunk t :: (processToolCalls fresh tcs k).1 ++ o2 := by
  refine ⟨turnBody_chunkTexts fresh msgs n, ?_⟩
  intro l1 t tcs l2 hsplit
  subst hsplit
  exact turnBody_ai_block fresh l1 t tcs l2 n

/-- C10 witness: a turn with an empty-text `AIMessage` carrying one
tool call, followed by another `AIMessage`; its chunk texts are exactly
the message texts and the empty-text message's chunk sits directly
before its `ToolCall`. -/
theorem C10_chunk_per_ai_message_witness :
    ((turnBody freshId [AgentMsg.ai "" [⟨some "t1", some "add_to_order", some "{}"⟩],
        AgentMsg.ai "done" []] 0).1).filterMap chunkText =
      ([AgentMsg.ai "" [⟨some "t1", some "add_to_order", some "{}"⟩],
        AgentMsg.ai "done" []]).filterMap aiText ∧
    ∃ o1 o2 k,
      (turnBody freshId [AgentMsg.ai "" [⟨some "t1", some "add_to_order", some "{}"⟩],
          AgentMsg.ai "done" []] 0).1 =
        o1 ++ Event.agentChunk "" ::
          (processToolCalls freshId [⟨some "t1", some "add_to_order", some "{}"⟩] k).1 ++ o2 :=
  ⟨(C10_chunk_per_ai_message freshId _ 0).1,
   (C10_chunk_per_ai_message freshId
      [AgentMsg.ai "" [⟨some "t1", some "add_to_order", some "{}"⟩],
       AgentMsg.ai "done" []] 0).2
     [] "" [⟨some "t1", some "add_to_order", some "{}"⟩] [AgentMsg.ai "done" []] rfl⟩

/-- Boolean membership test on id lists. -/
def memStr (s : String) : List String → Bool
  | [] => false
  | x :: rest => (x == s) || memStr s rest

lemma memStr_iff (s : String) (l : List String) : memStr s l = true ↔ s ∈ l := by
  induction l with
  | nil => simp [memStr]
  | cons x rest ih =>
    simp only [memStr, Bool.or_eq_true, beq_iff_eq, ih, List.mem_cons]
    exact ⟨fun h => h.elim (fun h => Or.inl h.symm) Or.inr,
           fun h => h.elim (fun h => Or.inl h.symm) Or.inr⟩

/-- The non-falsy ids the agent itself supplied on one `AIMessage`'s
tool calls (exactly those the stage keeps verbatim on the emitted
`ToolCall` events). -/
def suppliedOf (tcs : List ToolCallData) : List String :=
  tcs.filterMap fun tc =>
    match tc.id with
    | some s => if s = "" then none else some s
    | none => none

/-- Well-supplied agent stream: every tool outcome references, through
the id the stage will copy onto the `ToolResult` (default `""`), a
non-falsy id the agent supplied on a strictly earlier `AIMessage` of
the same stream. -/
def wellSupplied : List String → List AgentMsg → Bool
  | _, [] => true
  | ids, .ai _ tcs :: rest => wellSupplied (ids ++ suppliedOf tcs) rest
  | ids, .tool tcid _ _ :: rest => memStr (tcid.getD "") ids && wellSupplied ids rest
  | ids, .otherMsg :: rest => wellSupplied ids rest

/-- The no-orphan check of the spec, per turn: scanning left to right
(resetting the known ids at each turn boundary), every `ToolResult`'s
`tool_call_id` must be the id of a `ToolCall` already emitted in the
same turn. -/
def noOrphansFrom : List String → List Event → Bool
  | _, [] => true
  | seen, e :: rest =>
    match e with
    | .toolCall i _ _ => noOrphansFrom (i :: seen) rest
    | .toolResult tid _ _ => memStr tid seen && noOrphansFrom seen rest
    | .sttFinal _ => noOrphansFrom [] rest
    | .agentEnd => noOrphansFrom [] rest
    | _ => noOrphansFrom seen rest

/-- C7 counterexample: when the agent omits a tool-call id, the stage
mints a fresh id for the emitted `ToolCall`, but the later
`ToolResult` still carries the agent-side id (here the default `""`),
so the session output contains a `ToolResult` whose `tool_call_id`
matches no earlier `ToolCall` of its turn. -/
theorem C7_generated_id_orphans_result :
    noOrphansFrom []
      (agentStream freshId [Event.sttFinal "add a turkey sandwich"]
        [[AgentMsg.ai "" [⟨none, some "add_to_order", some "{}"⟩],
          AgentMsg.tool none (some "add_to_order") (some "Added")]] 0) = false := by
  decide

/-- Ids known after emitting the `ToolCall` events of one tool-call
list, newest first, on top of the previously known ids. -/
def seenAfterTC (fresh : Nat → String) : List ToolCallData → Nat → List String → List String
  | [], _, seen => seen
  | tc :: rest, n, seen =>
    match toolCallIdOf fresh n tc.id with
    | (i, n') => seenAfterTC fresh rest n' (i :: seen)

lemma noOrphans_processToolCalls (fresh : Nat → String) (tcs : List ToolCallData) :
    ∀ n seen xs,
      noOrphansFrom seen ((processToolCalls fresh tcs n).1 ++ xs) =
        noOrphansFrom (seenAfterTC fresh tcs n seen) xs := by
  induction tcs with
  | nil => intro n seen xs; rfl
  | cons tc rest ih =>
    intro n seen xs
    rcases h1 : toolCallIdOf fresh n tc.id with ⟨i, n'⟩
    rcases h2 : processToolCalls fresh rest n' with ⟨evs, n''⟩
    have hr := ih n' (i :: seen) xs
    rw [h2] at hr
    have hpc : processToolCalls fresh (tc :: rest) n =
        (Event.toolCall i (tc.name.getD "unknown") (tc.args.getD "{}") :: evs, n'') := by
      simp only [processToolCalls, h1, h2]
    have hsa : seenAfterTC fresh (tc :: rest) n seen = seenAfterTC fresh rest n' (i :: seen) := by
      simp only [seenAfterTC, h1]
    rw [hpc, hsa]
    show noOrphansFrom (i :: seen) (evs ++ xs) =
      noOrphansFrom (seenAfterTC fresh rest n' (i :: seen)) xs
    simpa using hr

lemma seenAfterTC_mem (fresh : Nat → String) (tcs : List ToolCallData) :
    ∀ n seen s, (s ∈ seen ∨ s ∈ suppliedOf tcs) →
      s ∈ seenAfterTC fresh tcs n seen := by
  induction tcs with
  | nil =>
    intro n seen s hs
    rcases hs with hs | hs
    · exact hs
    · simp [suppliedOf] at hs
  | cons tc rest ih =>
    intro n seen s hs
    rcases h1 : toolCallIdOf fresh n tc.id with ⟨i, n'⟩
    simp only [seenAfterTC, h1]
    cases htc : tc.id with
    | none =>
      rcases hs with hs | hs
      · exact ih n' (i :: seen) s (Or.inl (List.mem_cons_of_mem i hs))
      · refine ih n' (i :: seen) s (Or.inr ?_)
        simpa [suppliedOf, htc, List.filterMap_cons] using hs
    | some s0 =>
      by_cases h0 : s0 = ""
      · rcases hs with hs | hs
        · exact ih n' (i :: seen) s (Or.inl (List.mem_cons_of_mem i hs))
        · refine ih n' (i :: seen) s (Or.inr ?_)
          simpa [suppliedOf, htc, h0, List.filterMap_cons] using hs
      · have hi : i = s0 := by
          rw [htc] at h1
          simp [toolCallIdOf, h0] at h1
          exact h1.1.symm
        rcases hs with hs | hs
        · exact ih n' (i :: seen) s (Or.inl (List.mem_cons_of_mem i hs))
        · have : s = s0 ∨ s ∈ suppliedOf rest := by
            simpa [suppliedOf, htc, h0, List.filterMap_cons] using hs
          rcases this with rfl | hs'
          · exact ih n' (i :: seen) s (Or.inl (by rw [hi]; exact List.mem_cons_self _ _))
          · exact ih n' (i :: seen) s (Or.inr hs')

lemma turnBody_noOrphans (fresh : Nat → String) (msgs : List AgentMsg) :
    ∀ ids seen n xs,
      wellSupplied ids msgs = true →
      (∀ s ∈ ids, s ∈ seen) →
      ∃ seen2, noOrphansFrom seen ((turnBody fresh msgs n).1 ++ xs) =
        noOrphansFrom seen2 xs := by
  induction msgs with
  | nil => intro ids seen n xs _ _; exact ⟨seen, rfl⟩
  | cons m rest ih =>
    intro ids seen n xs hw hsub
    cases m with
    | ai t tcs =>
      rcases h3 : processToolCalls fresh tcs n with ⟨tevs, n'⟩
      rcases h2 : turnBody fresh rest n' with ⟨evs2, n''⟩
      have hw' : wellSupplied (ids ++ suppliedOf tcs) rest = true := hw
      have hsub' : ∀ s ∈ ids ++ suppliedOf tcs, s ∈ seenAfterTC fresh tcs n seen := by
        intro s hs
        rcases List.mem_append.1 hs with hs | hs
        · exact seenAfterTC_mem fresh tcs n seen s (Or.inl (hsub s hs))
        · exact seenAfterTC_mem fresh tcs n seen s (Or.inr hs)
      rcases ih (ids ++ suppliedOf tcs) (seenAfterTC fresh tcs n seen) n' xs hw' hsub'
        with ⟨seen2, hseen2⟩
      rw [h2] at hseen2
      refine ⟨seen2, ?_⟩
      have hbody : (turnBody fresh (AgentMsg.ai t tcs :: rest) n).1 =
          Event.agentChunk t :: (tevs ++ evs2) := by
        simp [turnBody, processMsg, h3, h2]
      rw [hbody]
      have hpt := noOrphans_processToolCalls fresh tcs n seen (evs2 ++ xs)
      rw [h3] at hpt
      have hstep : noOrphansFrom seen ((Event.agentChunk t :: (tevs ++ evs2)) ++ xs) =
          noOrphansFrom seen (tevs ++ (evs2 ++ xs)) := by
        simp [noOrphansFrom, List.append_assoc]
      rw [hstep, hpt, hseen2]
    | tool tcid nm c =>
      have hw1 : memStr (tcid.getD "") ids = true ∧ wellSupplied ids rest = true := by
        simpa [wellSupplied, Bool.and_eq_true] using hw
      have hmem : (tcid.getD "") ∈ seen := hsub _ ((memStr_iff _ _).1 hw1.1)
      rcases h2 : turnBody fresh rest n with ⟨evs2, n''⟩
      rcases ih ids seen n xs hw1.2 hsub with ⟨seen2, hseen2⟩
      rw [h2] at hseen2
      refine ⟨seen2, ?_⟩
      have hbody : (turnBody fresh (AgentMsg.tool tcid nm c :: rest) n).1 =
          Event.toolResult (tcid.getD "") (nm.getD "unknown") (c.getD "") :: evs2 := by
        simp [turnBody, processMsg, h2]
      rw [hbody]
      simp [noOrphansFrom, (memStr_iff _ _).2 hmem, hseen2]
    | otherMsg =>
      rcases h2 : turnBody fresh rest n with ⟨evs2, n''⟩
      rcases ih ids seen n xs (by simpa [wellSupplied] using hw) hsub with ⟨seen2, hseen2⟩
      rw [h2] at hseen2
      refine ⟨seen2, ?_⟩
      have hbody : (turnBody fresh (AgentMsg.otherMsg :: rest) n).1 = evs2 := by
        simp [turnBody, processMsg, h2]
      rw [hbody]
      exact hseen2

lemma agentStream_noOrphans (fresh : Nat → String) (input : List Event) :
    ∀ streams n,
      (∀ e ∈ input, isSttEvent e = true) →
      (∀ ms ∈ streams, wellSupplied [] ms = true) →
      noOrphansFrom [] (agentStream fresh input streams n) = true := by
  induction input with
  | nil => intro streams n _ _; rfl
  | cons e rest ih =>
    intro streams n h1 h2
    have h1' : ∀ e ∈ rest, isSttEvent e = true :=
      fun e' he' => h1 e' (List.mem_cons_of_mem e he')
    have h2t : ∀ ms ∈ streams.tail, wellSupplied [] ms = true :=
      fun ms hm => h2 ms (List.mem_of_mem_tail hm)
    have he := h1 e (List.mem_cons_self e rest)
    cases e with
    | sttChunk t =>
      show noOrphansFrom [] (agentStream fresh rest streams n) = true
      exact ih streams n h1' h2
    | sttFinal t =>
      rcases hb : turnBody fresh (streams.headD []) n with ⟨tevs, n'⟩
      have hws : wellSupplied [] (streams.headD []) = true := by
        cases streams with
        | nil => rfl
        | cons ms ss => exact h2 ms (List.mem_cons_self ms ss)
      rcases turnBody_noOrphans fresh (streams.headD []) [] [] n
          (Event.agentEnd :: agentStream fresh rest streams.tail n') hws
          (fun s hs => absurd hs (List.not_mem_nil s)) with ⟨seen2, hseen2⟩
      rw [hb] at hseen2
      simp only [agentStream, hb]
      show noOrphansFrom []
        (tevs ++ Event.agentEnd :: agentStream fresh rest streams.tail n') = true
      rw [hseen2]
      show noOrphansFrom [] (agentStream fresh rest streams.tail n') = true
      exact ih streams.tail n' h1' h2t
    | agentChunk t => simp [isSttEvent] at he
    | toolCall a b c => simp [isSttEvent] at he
    | toolResult a b c => simp [isSttEvent] at he
    | agentEnd => simp [isSttEvent] at he
    | audioChunk d => simp [isSttEvent] at he

/-- Whether the stage draws a fresh id for this agent-side id (absent,
or the falsy empty string). -/
def generatesId : Option String → Bool
  | some s => s == ""
  | none => true

/-- Number of fresh ids drawn for one `AIMessage`'s tool-call list. -/
def countGen (tcs : List ToolCallData) : Nat :=
  tcs.countP (fun tc => generatesId tc.id)

/-- Number of fresh ids drawn over one turn's agent stream. -/
def countGenTurn : List AgentMsg → Nat
  | [] => 0
  | .ai _ tcs :: rest => countGen tcs + countGenTurn rest
  | .tool _ _ _ :: rest => countGenTurn rest
  | .otherMsg :: rest => countGenTurn rest

/-- The ids carried by the `ToolCall` events of a stream, in emission
order. -/
def toolCallIds (es : List Event) : List String :=
  es.filterMap fun e =>
    match e with
    | .toolCall i _ _ => some i
    | _ => none

lemma processToolCalls_counter (fresh : Nat → String) (tcs : List ToolCallData) :
    ∀ n, (processToolCalls fresh tcs n).2 = n + countGen tcs := by
  induction tcs with
  | nil => intro n; simp [processToolCalls, countGen]
  | cons tc rest ih =>
    intro n
    rcases h1 : toolCallIdOf fresh n tc.id with ⟨i, n'⟩
    rcases h2 : processToolCalls fresh rest n' with ⟨evs, n''⟩
    have hpc : processToolCalls fresh (tc :: rest) n = (Event.toolCall i
        (tc.name.getD "unknown") (tc.args.getD "{}") :: evs, n'') := by
      simp only [processToolCalls, h1, h2]
    have hrec := ih n'
    rw [h2] at hrec
    simp only at hrec
    rw [hpc]
    show n'' = n + countGen (tc :: rest)
    cases htc : tc.id with
    | none =>
      rw [htc] at h1
      simp [toolCallIdOf] at h1
      have hcnt : countGen (tc :: rest) = countGen rest + 1 := by
        simp [countGen, List.countP_cons, generatesId, htc]
      obtain ⟨h1a, h1b⟩ := h1
      rw [hcnt]
      omega
    | some s =>
      by_cases h0 : s = ""
      · subst h0
        rw [htc] at h1
        simp [toolCallIdOf] at h1
        have hcnt : countGen (tc :: rest) = countGen rest + 1 := by
          simp [countGen, List.countP_cons, generatesId, htc]
        obtain ⟨h1a, h1b⟩ := h1
        rw [hcnt]
        omega
      · rw [htc] at h1
        simp [toolCallIdOf, h0] at h1
        have hcnt : countGen (tc :: rest) = countGen rest := by
          simp [countGen, List.countP_cons, generatesId, htc, h0]
        obtain ⟨h1a, h1b⟩ := h1
        rw [hcnt]
        omega

lemma turnBody_counter (fresh : Nat → String) (msgs : List AgentMsg) :
    ∀ n, (turnBody fresh msgs n).2 = n + countGenTurn msgs := by
  induction msgs with
  | nil => intro n; simp [turnBody, countGenTurn]
  | cons m rest ih =>
    intro n
    cases m with
    | ai t tcs =>
      rcases h3 : processToolCalls fresh tcs n with ⟨tevs, n'⟩
      rcases h2 : turnBody fresh rest n' with ⟨evs2, n''⟩
      have hc := processToolCalls_counter fresh tcs n
      rw [h3] at hc
      have hrec := ih n'
      rw [h2] at hrec
      have hbody : turnBody fresh (AgentMsg.ai t tcs :: rest) n =
          (Event.agentChunk t :: (tevs ++ evs2), n'') := by
        simp [turnBody, processMsg, h3, h2]
      rw [hbody]
      show n'' = n + countGenTurn (AgentMsg.ai t tcs :: rest)
      simp [countGenTurn, hrec, hc]
      omega
    | tool tcid nm c =>
      rcases h2 : turnBody fresh rest n with ⟨evs2, n''⟩
      have hrec := ih n
      rw [h2] at hrec
      have hbody : turnBody fresh (AgentMsg.tool tcid nm c :: rest) n =
          (Event.toolResult (tcid.getD "") (nm.getD "unknown") (c.getD "") :: evs2, n'') := by
        simp [turnBody, processMsg, h2]
      rw [hbody]
      simpa [countGenTurn] using hrec
    | otherMsg =>
      rcases h2 : turnBody fresh rest n with ⟨evs2, n''⟩
      have hrec := ih n
      rw [h2] at hrec
      have hbody : turnBody fresh (AgentMsg.otherMsg :: rest) n = (evs2, n'') := by
        simp [turnBody, processMsg, h2]
      rw [hbody]
      simpa [countGenTurn] using hrec

lemma genIds_processToolCalls (fresh : Nat → String) (tcs : List ToolCallData) :
    ∀ n k, k ∈ List.range' n (countGen tcs) →
      fresh k ∈ toolCallIds (processToolCalls fresh tcs n).1 := by
  induction tcs with
  | nil => intro n k hk; simp [countGen] at hk
  | cons tc rest ih =>
    intro n k hk
    rcases h1 : toolCallIdOf fresh n tc.id with ⟨i, n'⟩
    rcases h2 : processToolCalls fresh rest n' with ⟨evs, n''⟩
    have hpc : processToolCalls fresh (tc :: rest) n = (Event.toolCall i
        (tc.name.getD "unknown") (tc.args.getD "{}") :: evs, n'') := by
      simp only [processToolCalls, h1, h2]
    rw [hpc]
    show fresh k ∈ i :: toolCallIds evs
    cases htc : tc.id with
    | none =>
      rw [htc] at h1
      simp [toolCallIdOf] at h1
      have hcnt : countGen (tc :: rest) = countGen rest + 1 := by
        simp [countGen, List.countP_cons, generatesId, htc]
      rw [hcnt, List.range'_succ] at hk
      rcases List.mem_cons.1 hk with rfl | hk'
      · exact List.mem_cons.2 (Or.inl h1.1)
      · have := ih (n + 1) k (by simpa using hk')
        rw [h1.2, h2] at this
        exact List.mem_cons.2 (Or.inr this)
    | some s =>
      by_cases h0 : s = ""
      · subst h0
        rw [htc] at h1
        simp [toolCallIdOf] at h1
        have hcnt : countGen (tc :: rest) = countGen rest + 1 := by
          simp [countGen, List.countP_cons, generatesId, htc]
        rw [hcnt, List.range'_succ] at hk
        rcases List.mem_cons.1 hk with rfl | hk'
        · exact List.mem_cons.2 (Or.inl h1.1)
        · have := ih (n + 1) k (by simpa using hk')
          rw [h1.2, h2] at this
          exact List.mem_cons.2 (Or.inr this)
      · rw [htc] at h1
        simp [toolCallIdOf, h0] at h1
        have hcnt : countGen (tc :: rest) = countGen rest := by
          simp [countGen, List.countP_cons, generatesId, htc, h0]
        rw [hcnt] at hk
        have := ih n k hk
        rw [h1.2, h2] at this
        exact List.mem_cons.2 (Or.inr this)

lemma genIds_turnBody (fresh : Nat → String) (msgs : List AgentMsg) :
    ∀ n k, k ∈ List.range' n (countGenTurn msgs) →
      fresh k ∈ toolCallIds (turnBody fresh msgs n).1 := by
  induction msgs with
  | nil => intro n k hk; simp [countGenTurn] at hk
  | cons m rest ih =>
    intro n k hk
    cases m with
    | ai t tcs =>
      rcases h3 : processToolCalls fresh tcs n with ⟨tevs, n'⟩
      rcases h2 : turnBody fresh rest n' with ⟨evs2, n''⟩
      have hc := processToolCalls_counter fresh tcs n
      rw [h3] at hc
      have hbody : turnBody fresh (AgentMsg.ai t tcs :: rest) n =
          (Event.agentChunk t :: (tevs ++ evs2), n'') := by
        simp [turnBody, processMsg, h3, h2]
      rw [hbody]
      show fresh k ∈ toolCallIds (Event.agentChunk t :: (tevs ++ evs2))
      have hsplit : toolCallIds (Event.agentChunk t :: (tevs ++ evs2)) =
          toolCallIds tevs ++ toolCallIds evs2 := by
        simp [toolCallIds, List.filterMap_cons, List.filterMap_append]
      rw [hsplit]
      rw [show countGenTurn (AgentMsg.ai t tcs :: rest) =
            countGen tcs + countGenTurn rest from rfl] at hk
      rcases List.mem_range'_1.1 hk with ⟨hk1, hk2⟩
      by_cases hcase : k < n + countGen tcs
      · have hmem : k ∈ List.range' n (countGen tcs) := List.mem_range'_1.2 ⟨hk1, hcase⟩
        have := genIds_processToolCalls fresh tcs n k hmem
        rw [h3] at this
        exact List.mem_append.2 (Or.inl this)
      · have hmem : k ∈ List.range' n' (countGenTurn rest) := by
          refine List.mem_range'_1.2 ⟨?_, ?_⟩ <;> omega
        have := ih n' k hmem
        rw [h2] at this
        exact List.mem_append.2 (Or.inr this)
    | tool tcid nm c =>
      rcases h2 : turnBody fresh rest n with ⟨evs2, n''⟩
      have hbody : turnBody fresh (AgentMsg.tool tcid nm c :: rest) n =
          (Event.toolResult (tcid.getD "") (nm.getD "unknown") (c.getD "") :: evs2, n'') := by
        simp [turnBody, processMsg, h2]
      rw [hbody]
      have hmem : k ∈ List.range' n (countGenTurn rest) := by
        simpa [countGenTurn] using hk
      have := ih n k hmem
      rw [h2] at this
      simpa [toolCallIds, List.filterMap_cons] using this
    | otherMsg =>
      rcases h2 : turnBody fresh rest n with ⟨evs2, n''⟩
      have hbody : turnBody fresh (AgentMsg.otherMsg :: rest) n = (evs2, n'') := by
        simp [turnBody, processMsg, h2]
      rw [hbody]
      have hmem : k ∈ List.range' n (countGenTurn rest) := by
        simpa [countGenTurn] using hk
      have := ih n k hmem
      rw [h2] at this
      exact this

/-- An injective fresh-id supply for closed instantiations: `n` marks
repeated `'g'` characters, so distinct counters give distinct ids. -/
def freshMark (n : Nat) : String :=
  ⟨List.replicate n 'g'⟩

lemma freshMark_injective : Function.Injective freshMark := by
  intro a b h
  have hlen : (freshMark a).data.length = (freshMark b).data.length := by rw [h]
  simpa [freshMark] using hlen

/-- C7 amended: (a) provided the agent supplies, for each tool
invocation, a non-falsy id and every tool outcome references such an id
from an earlier `AIMessage` of the same stream, every `ToolResult` in
the session output matches an earlier `ToolCall` of the same turn; and
(b) for the turn starting at any supply counter `k`, the stage draws
exactly `countGenTurn` fresh ids — one per tool invocation the agent
left without a usable id — which are pairwise distinct (fresh supply
injective) and each of which appears on an emitted `ToolCall` of that
turn.  Without hypothesis (a), a locally minted id cannot match the
agent-side id on the later `ToolResult` (see the counterexample). -/
theorem C7_tool_id_correlation (fresh : Nat → String) (input : List Event)
    (streams : List (List AgentMsg)) (n : Nat)
    (h1 : ∀ e ∈ input, isSttEvent e = true)
    (h2 : ∀ ms ∈ streams, wellSupplied [] ms = true)
    (h3 : Function.Injective fresh) :
    noOrphansFrom [] (agentStream fresh input streams n) = true ∧
    ∀ ms ∈ streams, ∀ k,
      (turnBody fresh ms k).2 = k + countGenTurn ms ∧
      ((List.range' k (countGenTurn ms)).map fresh).Nodup ∧
      ∀ i ∈ (List.range' k (countGenTurn ms)).map fresh,
        i ∈ toolCallIds (turnBody fresh ms k).1 := by
  refine ⟨agentStream_noOrphans fresh input streams n h1 h2, ?_⟩
  intro ms _ k
  refine ⟨turnBody_counter fresh ms k, ?_, ?_⟩
  · exact (List.nodup_range' k (countGenTurn ms)).map h3
  · intro i hi
    rcases List.mem_map.1 hi with ⟨j, hj, rfl⟩
    exact genIds_turnBody fresh ms k j hj

/-- C7 witness: a well-supplied two-message agent stream (supplied id
`"t1"` referenced by the tool outcome) plus one id-less invocation in a
second `AIMessage`: the session output has no orphaned `ToolResult`,
and the single generated id is on an emitted `ToolCall`. -/
theorem C7_tool_id_correlation_witness :
    noOrphansFrom []
        (agentStream freshMark [Event.sttFinal "order"]
          [[AgentMsg.ai "" [⟨some "t1", some "add_to_order", some "{}"⟩],
            AgentMsg.tool (some "t1") (some "add_to_order") (some "Added"),
            AgentMsg.ai "ok" [⟨none, some "confirm_order", some "{}"⟩]]] 0) = true ∧
    ∀ ms ∈ [[AgentMsg.ai "" [⟨some "t1", some "add_to_order", some "{}"⟩],
            AgentMsg.tool (some "t1") (some "add_to_order") (some "Added"),
            AgentMsg.ai "ok" [⟨none, some "confirm_order", some "{}"⟩]]], ∀ k,
      (turnBody freshMark ms k).2 = k + countGenTurn ms ∧
      ((List.range' k (countGenTurn ms)).map freshMark).Nodup ∧
      ∀ i ∈ (List.range' k (countGenTurn ms)).map freshMark,
        i ∈ toolCallIds (turnBody freshMark ms k).1 :=
  C7_tool_id_correlation freshMark [Event.sttFinal "order"]
    [[AgentMsg.ai "" [⟨some "t1", some "add_to_order", some "{}"⟩],
      AgentMsg.tool (some "t1") (some "add_to_order") (some "Added"),
      AgentMsg.ai "ok" [⟨none, some "confirm_order", some "{}"⟩]]] 0
    (by decide) (by decide) freshMark_injective

/-- Observable state of the `CartesiaSTT` handle: the connected flag,
the close signal (`_close_signal`), and whether the websocket and
client objects are present. -/
structure STTState where
  is_connected : Bool
  close_signal : Bool
  hasWs : Bool
  hasClient : Bool
  deriving DecidableEq, Repr

/-- `CartesiaSTT.send_audio`: returns immediately without touching the
websocket when disconnected or without a websocket; otherwise performs
the send, and when the send raises (the `sendFails` outcome of the
embedded `try`/`except`), swallows the error and only clears the
connected flag.  The second component records whether the websocket
send was attempted.  The function is total: no path re-raises. -/
def STTState.sendAudio (s : STTState) (sendFails : Bool) : STTState × Bool :=
  if !s.is_connected || !s.hasWs then (s, false)
  else if sendFails then ({ s with is_connected := false }, true)
  else (s, true)

/-- `CartesiaSTT.close`: sets the close signal, best-effort closes the
websocket and client (exceptions suppressed), clears the connected
flag and drops both objects — the resulting state is the closed state
whatever the starting state. -/
def STTState.close (_ : STTState) : STTState :=
  ⟨false, true, false, false⟩

/-- One result of the websocket's receive iterator, or the iterator
raising. -/
inductive WsResult where
  | transcript (text : String) (is_final : Bool)
  | done
  | unknown
  | raisedErr
  deriving DecidableEq, Repr

/-- An interleaved operation on the STT handle while a session runs. -/
inductive SttOp where
  | send (fails : Bool)
  | result (r : WsResult)
  | closeOp
  deriving DecidableEq, Repr

/-- Handle state plus whether the `receive_events` loop is still
consuming results. -/
structure SttMachine where
  st : STTState
  running : Bool
  deriving DecidableEq, Repr

/-- Interleaved semantics of `cartesia_stt.py`: a send failure only
clears the connected flag; the receive loop checks only the close
signal between results, translates transcripts to `SttChunk`/`SttFinal`
events, stops on `done` or on a raised receive error (which also clears
the connected flag), and `close` flips the close signal and resets the
handle. -/
def sttStep (m : SttMachine) : SttOp → SttMachine × List Event
  | .send fails => ({ m with st := (m.st.sendAudio fails).1 }, [])
  | .closeOp => ({ m with st := m.st.close }, [])
  | .result r =>
    if !m.running then (m, [])
    else if m.st.close_signal then ({ m with running := false }, [])
    else
      match r with
      | .transcript t true => (m, [Event.sttFinal t])
      | .transcript t false => (m, [Event.sttChunk t])
      | .done => ({ m with running := false }, [])
      | .unknown => (m, [])
      | .raisedErr => ({ st := { m.st with is_connected := false }, running := false }, [])

/-- Events produced over a list of interleaved operations. -/
def sttRun (m : SttMachine) : List SttOp → List Event
  | [] => []
  | op :: rest =>
    match sttStep m op with
    | (m', evs) => evs ++ sttRun m' rest

/-- `receive_events` entry: the loop body is reached only when the
handle is connected and a websocket is present. -/
def receiveEntry (s : STTState) : SttMachine :=
  { st := s, running := s.is_connected && s.hasWs }

lemma sendAudio_close_signal (s : STTState) (b : Bool) :
    ((s.sendAudio b).1).close_signal = s.close_signal := by
  unfold STTState.sendAudio
  by_cases h1 : !s.is_connected || !s.hasWs
  · simp [h1]
  · by_cases h2 : b <;> simp [h1, h2]

/-- Runs from machines agreeing on the close signal and loop status
produce the same events: the emitted sequence never reads the connected
flag once the loop has been entered. -/
lemma sttRun_proj (ops : List SttOp) :
    ∀ m m' : SttMachine, m.st.close_signal = m'.st.close_signal →
      m.running = m'.running → sttRun m ops = sttRun m' ops := by
  induction ops with
  | nil => intro m m' _ _; rfl
  | cons op rest ih =>
    intro m m' hcs hr
    cases op with
    | send fails =>
      show sttRun { m with st := (m.st.sendAudio fails).1 } rest =
        sttRun { m' with st := (m'.st.sendAudio fails).1 } rest
      exact ih _ _ (by simp [sendAudio_close_signal, hcs]) (by simp [hr])
    | closeOp =>
      show sttRun { m with st := m.st.close } rest =
        sttRun { m' with st := m'.st.close } rest
      exact ih _ _ (by simp [STTState.close]) (by simp [hr])
    | result r =>
      by_cases hrun : m.running
      · by_cases hsig : m.st.close_signal
        · have h1 : sttStep m (.result r) = ({ m with running := false }, []) := by
            simp [sttStep, hrun, hsig]
          have h2 : sttStep m' (.result r) = ({ m' with running := false }, []) := by
            simp [sttStep, ← hr, hrun, ← hcs, hsig]
          simp only [sttRun, h1, h2, List.nil_append]
          exact ih _ _ (by simpa using hcs) (by simp)
        · cases r with
          | transcript t fin =>
            cases fin with
            | true =>
              have h1 : sttStep m (.result (.transcript t true)) = (m, [Event.sttFinal t]) := by
                simp [sttStep, hrun, hsig]
              have h2 : sttStep m' (.result (.transcript t true)) = (m', [Event.sttFinal t]) := by
                simp [sttStep, ← hr, hrun, ← hcs, hsig]
              simp only [sttRun, h1, h2]
              rw [ih _ _ hcs hr]
            | false =>
              have h1 : sttStep m (.result (.transcript t false)) = (m, [Event.sttChunk t]) := by
                simp [sttStep, hrun, hsig]
              have h2 : sttStep m' (.result (.transcript t false)) = (m', [Event.sttChunk t]) := by
                simp [sttStep, ← hr, hrun, ← hcs, hsig]
              simp only [sttRun, h1, h2]
              rw [ih _ _ hcs hr]
          | done =>
            have h1 : sttStep m (.result .done) = ({ m with running := false }, []) := by
              simp [sttStep, hrun, hsig]
            have h2 : sttStep m' (.result .done) = ({ m' with running := false }, []) := by
              simp [sttStep, ← hr, hrun, ← hcs, hsig]
            simp only [sttRun, h1, h2, List.nil_append]
            exact ih _ _ (by simpa using hcs) (by simp)
          | unknown =>
            have h1 : sttStep m (.result .unknown) = (m, []) := by
              simp [sttStep, hrun, hsig]
            have h2 : sttStep m' (.result .unknown) = (m', []) := by
              simp [sttStep, ← hr, hrun, ← hcs, hsig]
            simp only [sttRun, h1, h2, List.nil_append]
            exact ih _ _ hcs hr
          | raisedErr =>
            have h1 : sttStep m (.result .raisedErr) =
                ({ st := { m.st with is_connected := false }, running := false }, []) := by
              simp [sttStep, hrun, hsig]
            have h2 : sttStep m' (.result .raisedErr) =
                ({ st := { m'.st with is_connected := false }, running := false }, []) := by
              simp [sttStep, ← hr, hrun, ← hcs, hsig]
            simp only [sttRun, h1, h2, List.nil_append]
            exact ih _ _ (by simpa using hcs) (by simp)
      · have h1 : sttStep m (.result r) = (m, []) := by
          simp [sttStep, hrun]
        have h2 : sttStep m' (.result r) = (m', []) := by
          simp [sttStep, ← hr, hrun]
        simp only [sttRun, h1, h2, List.nil_append]
        exact ih _ _ hcs hr

/-- C8: a failing websocket send on a connected handle is swallowed by
`send_audio` (embedded as a total function — the `except` branch
returns normally) and only clears the connected flag after having
attempted the send; and a failing send inserted anywhere into an
interleaved run changes nothing about the emitted recognition events —
the receive loop never consults the connected flag after entry, so a
send failure by itself never ends the event sequence. -/
theorem C8_send_failure_degrades_only (s : STTState)
    (h1 : s.is_connected = true) (h2 : s.hasWs = true) :
    ((s.sendAudio true).1.is_connected = false ∧ (s.sendAudio true).2 = true) ∧
    ∀ (m : SttMachine) (ops1 ops2 : List SttOp),
      sttRun m (ops1 ++ SttOp.send true :: ops2) = sttRun m (ops1 ++ ops2) := by
  constructor
  · constructor
    · simp [STTState.sendAudio, h1, h2]
    · simp [STTState.sendAudio, h1, h2]
  · intro m ops1 ops2
    induction ops1 generalizing m with
    | nil =>
      show [] ++ sttRun { m with st := (m.st.sendAudio true).1 } ops2 = sttRun m ops2
      rw [List.nil_append]
      exact sttRun_proj ops2 _ m (by simp [sendAudio_close_signal]) rfl
    | cons op ops1 ih2 =>
      show sttRun m (op :: (ops1 ++ SttOp.send true :: ops2)) =
        sttRun m (op :: (ops1 ++ ops2))
      rcases hs : sttStep m op with ⟨m', evs⟩
      simp only [sttRun, hs]
      rw [ih2 m']

/-- C8 witness: with a connected handle, a send failure between two
transcripts flips the flag, reports the attempted send, and leaves the
emitted events unchanged. -/
theorem C8_send_failure_degrades_only_witness :
    (((STTState.mk true false true true).sendAudio true).1.is_connected = false ∧
      ((STTState.mk true false true true).sendAudio true).2 = true) ∧
    sttRun (receiveEntry (STTState.mk true false true true))
        ([SttOp.result (WsResult.transcript "he" false)] ++ SttOp.send true ::
          [SttOp.result (WsResult.transcript "hello" true)]) =
      sttRun (receiveEntry (STTState.mk true false true true))
        ([SttOp.result (WsResult.transcript "he" false)] ++
          [SttOp.result (WsResult.transcript "hello" true)]) :=
  ⟨(C8_send_failure_degrades_only (STTState.mk true false true true) rfl rfl).1,
   (C8_send_failure_degrades_only (STTState.mk true false true true) rfl rfl).2
     (receiveEntry (STTState.mk true false true true))
     [SttOp.result (WsResult.transcript "he" false)]
     [SttOp.result (WsResult.transcript "hello" true)]⟩

lemma sttRun_stopped (ops : List SttOp) :
    ∀ m : SttMachine, m.running = false → sttRun m ops = [] := by
  induction ops with
  | nil => intro m _; rfl
  | cons op rest ih =>
    intro m hm
    cases op with
    | send fails =>
      show [] ++ sttRun { m with st := (m.st.sendAudio fails).1 } rest = []
      rw [List.nil_append]
      exact ih _ (by simp [hm])
    | closeOp =>
      show [] ++ sttRun { m with st := m.st.close } rest = []
      rw [List.nil_append]
      exact ih _ (by simp [hm])
    | result r =>
      have h1 : sttStep m (.result r) = (m, []) := by
        simp [sttStep, hm]
      simp only [sttRun, h1, List.nil_append]
      exact ih m hm

/-- C9: on a handle whose connected flag is false (never connected,
degraded by a send or receive failure, or closed), `send_audio` returns
the state unchanged without attempting a websocket send, and
`receive_events` yields no events at all; both are total functions of
the embedding, so neither raises. -/
theorem C9_disconnected_is_inert (s : STTState) (b : Bool)
    (results : List WsResult) (h : s.is_connected = false) :
    s.sendAudio b = (s, false) ∧
    sttRun (receiveEntry s) (results.map SttOp.result) = [] := by
  constructor
  · simp [STTState.sendAudio, h]
  · exact sttRun_stopped _ _ (by simp [receiveEntry, h])

/-- C9 witness: a disconnected handle with a live websocket object:
sending is a no-op and a pending transcript result yields nothing. -/
theorem C9_disconnected_is_inert_witness :
    (STTState.mk false false true true).sendAudio true =
      (STTState.mk false false true true, false) ∧
    sttRun (receiveEntry (STTState.mk false false true true))
        ([WsResult.transcript "hello" true].map SttOp.result) = [] :=
  C9_disconnected_is_inert (STTState.mk false false true true) true
    [WsResult.transcript "hello" true] rfl

/-- A collaborator call made on the STT handle by `_stt_stream`. -/
inductive SttCall where
  | sendAudioCall (chunk : String)
  | closeCall
  deriving DecidableEq, Repr

/-- Calls of the `send_audio` forwarding task in `_stt_stream`
(main.py): one send per consumed audio chunk, then — from its `finally`
block, which runs whether the audio stream ended or the task was
cancelled — one close. -/
def sendAudioTaskCalls (consumed : List String) : List SttCall :=
  consumed.map SttCall.sendAudioCall ++ [SttCall.closeCall]

/-- Calls of one `_stt_stream` lifecycle, however it ends: the
generator's `finally` cancels and awaits the send task (whose own
`finally` has then closed the handle) and then closes the handle
again. -/
def sttStreamCalls (consumed : List String) : List SttCall :=
  sendAudioTaskCalls consumed ++ [SttCall.closeCall]

def closeCallCount (calls : List SttCall) : Nat :=
  calls.countP fun c =>
    match c with
    | SttCall.closeCall => true
    | _ => false

/-- C5 counterexample: on a session that ends with no audio consumed,
`_stt_stream` invokes the STT handle's close operation twice — once
from the send task's `finally` and once from the generator's own
`finally` — not exactly once as claimed. -/
theorem C5_close_invoked_twice :
    closeCallCount (sttStreamCalls []) = 2 ∧ closeCallCount (sttStreamCalls []) ≠ 1 := by
  decide

/-- C5 amended: on every teardown path the STT handle's close is
invoked exactly twice (send task `finally` plus stream `finally`), and
close is idempotent — a second invocation leaves the handle in the same
closed state: disconnected, close signal set, websocket and client
dropped — so the double invocation is harmless. -/
theorem C5_teardown_idempotent_close (chunks : List String) (s : STTState) :
    closeCallCount (sttStreamCalls chunks) = 2 ∧
    STTState.close (STTState.close s) = STTState.close s ∧
    (STTState.close s).is_connected = false ∧
    (STTState.close s).close_signal = true := by
  refine ⟨?_, rfl, rfl, rfl⟩
  have h0 : closeCallCount (chunks.map SttCall.sendAudioCall) = 0 := by
    rw [closeCallCount, List.countP_eq_zero]
    intro c hc
    rcases List.mem_map.1 hc with ⟨x, _, rfl⟩
    simp
  simp [sttStreamCalls, sendAudioTaskCalls, closeCallCount, List.countP_append] at h0 ⊢
